import Mathlib

/-!
Verification of the Custom-Classes repository (data wranglers + schema
generator) against its natural-language specification.

Strings are modelled as `List Char`.  The column-name transformation
(`_clean_column_names`), the value normalization (`_clean_dataframe`), the
ingestion loops (`__call__` of `LocalDataWrangler` / `s3DataWrangler`), the
key listings (`get_filenames`) and `SchemaGenerator.__call__` are embedded
as executable Lean functions.  Recursions whose measure is the string
length are written with an explicit fuel argument (instantiated with the
length) so that all definitions reduce by evaluation.
-/

/-! ## Character utilities (Python `str` primitives used by the source) -/

/-- Whitespace in the sense of Python's `str.split` / `str.strip`
(ASCII part: space, tab, newline, carriage return, vertical tab, form feed). -/
def isWs (c : Char) : Bool :=
  c = ' ' || c = '\t' || c = '\n' || c = '\r' || c = '\x0b' || c = '\x0c'

/-- Python `str.upper`, per character (ASCII letters). -/
def upChar (c : Char) : Char :=
  if 97 ≤ c.toNat ∧ c.toNat ≤ 122 then Char.ofNat (c.toNat - 32) else c

/-- Python `str.lower`, per character (ASCII letters). -/
def lowChar (c : Char) : Char :=
  if 65 ≤ c.toNat ∧ c.toNat ≤ 90 then Char.ofNat (c.toNat + 32) else c

theorem toNat_ofNat_small (n : Nat) (h : n < 55296) : (Char.ofNat n).toNat = n := by
  have hv : n.isValidChar := Or.inl h
  rw [Char.ofNat, dif_pos hv]
  rfl

theorem upChar_toNat_of_lower (c : Char) (h : 97 ≤ c.toNat ∧ c.toNat ≤ 122) :
    (upChar c).toNat = c.toNat - 32 := by
  rw [upChar, if_pos h]
  exact toNat_ofNat_small _ (by omega)

theorem upChar_of_not_lower (c : Char) (h : ¬(97 ≤ c.toNat ∧ c.toNat ≤ 122)) :
    upChar c = c := by
  rw [upChar, if_neg h]

theorem upChar_idem (c : Char) : upChar (upChar c) = upChar c := by
  by_cases h : 97 ≤ c.toNat ∧ c.toNat ≤ 122
  · have ht : (upChar c).toNat = c.toNat - 32 := upChar_toNat_of_lower c h
    exact upChar_of_not_lower _ (by omega)
  · rw [upChar_of_not_lower c h]
    exact upChar_of_not_lower c h

theorem isWs_eq_false_of_upper_range (d : Char)
    (h : 65 ≤ d.toNat ∧ d.toNat ≤ 90) : isWs d = false := by
  simp only [isWs, Bool.or_eq_false_iff, decide_eq_false_iff_not]
  refine ⟨⟨⟨⟨⟨?_, ?_⟩, ?_⟩, ?_⟩, ?_⟩, ?_⟩ <;>
    (intro he; subst he; exact absurd h (by decide))

theorem isWs_upChar (c : Char) (h : isWs (upChar c) = true) : isWs c = true := by
  by_cases hc : 97 ≤ c.toNat ∧ c.toNat ≤ 122
  · exfalso
    have ht : (upChar c).toNat = c.toNat - 32 := upChar_toNat_of_lower c hc
    have hf : isWs (upChar c) = false :=
      isWs_eq_false_of_upper_range _ (by omega)
    rw [h] at hf
    exact absurd hf (by decide)
  · rwa [upChar_of_not_lower c hc] at h

theorem upChar_eq_open (c : Char) (h : upChar c = '(') : c = '(' := by
  by_cases hc : 97 ≤ c.toNat ∧ c.toNat ≤ 122
  · exfalso
    have ht : (upChar c).toNat = c.toNat - 32 := upChar_toNat_of_lower c hc
    have h40 : (upChar c).toNat = 40 := by rw [h]; decide
    omega
  · rwa [upChar_of_not_lower c hc] at h

theorem upChar_eq_close (c : Char) (h : upChar c = ')') : c = ')' := by
  by_cases hc : 97 ≤ c.toNat ∧ c.toNat ≤ 122
  · exfalso
    have ht : (upChar c).toNat = c.toNat - 32 := upChar_toNat_of_lower c hc
    have h41 : (upChar c).toNat = 41 := by rw [h]; decide
    omega
  · rwa [upChar_of_not_lower c hc] at h

/-- An ASCII upper-case letter. -/
def isUpperAscii (c : Char) : Bool :=
  decide (65 ≤ c.toNat ∧ c.toNat ≤ 90)

theorem isUpperAscii_eq_false (c : Char) (h : ¬(65 ≤ c.toNat ∧ c.toNat ≤ 90)) :
    isUpperAscii c = false := by
  simpa only [isUpperAscii, decide_eq_false_iff_not] using h

theorem lowChar_not_upper (c : Char) : isUpperAscii (lowChar c) = false := by
  by_cases hc : 65 ≤ c.toNat ∧ c.toNat ≤ 90
  · have ht : (lowChar c).toNat = c.toNat + 32 := by
      rw [lowChar, if_pos hc]
      exact toNat_ofNat_small _ (by omega)
    exact isUpperAscii_eq_false _ (by omega)
  · rw [lowChar, if_neg hc]
    exact isUpperAscii_eq_false _ hc

/-! ## Stage 1 of `_clean_column_names`: `' '.join(col.strip().split())` -/

/-- Python `str.split()` (no argument): split on whitespace runs, discarding
empty pieces.  Fuel-driven; `fuel = s.length` suffices. -/
def wordsF : Nat → List Char → List (List Char)
  | 0, _ => []
  | _ + 1, [] => []
  | fuel + 1, c :: cs =>
    if isWs c then wordsF fuel cs
    else (c :: cs.takeWhile (fun x => !isWs x)) :: wordsF fuel (cs.dropWhile (fun x => !isWs x))

/-- `' '.join(ws)`. -/
def joinWords : List (List Char) → List Char
  | [] => []
  | [w] => w
  | w :: ws => w ++ ' ' :: joinWords ws

/-- `' '.join(col.strip().split())`: collapse whitespace runs to single
spaces and drop leading/trailing whitespace (the `.strip()` is subsumed by
`.split()`). -/
def collapseWs (s : List Char) : List Char :=
  joinWords (wordsF s.length s)

/-! ## Stage 2: `re.sub(r'\s*\([^)]*\)', '', col)` -/

/-- Does the regex `\s*\([^)]*\)` match at the head of `s`?  If so, return
the remainder after the match (greedy `\s*` takes the maximal whitespace
run; the span ends at the first `)` after the `(`). -/
def parenMatch (s : List Char) : Option (List Char) :=
  match s.dropWhile isWs with
  | [] => none
  | a :: u =>
    if a = '(' then
      match u.dropWhile (fun c => !(c = ')')) with
      | [] => none
      | _ :: rest => some rest
    else none

/-- `re.sub(r'\s*\([^)]*\)', '', s)`: scan left to right, removing each
non-overlapping leftmost match.  Fuel-driven; `fuel = s.length` suffices. -/
def removeParensF : Nat → List Char → List Char
  | 0, _ => []
  | _ + 1, [] => []
  | fuel + 1, c :: cs =>
    match parenMatch (c :: cs) with
    | some rest => removeParensF fuel rest
    | none => c :: removeParensF fuel cs

def removeParens (s : List Char) : List Char :=
  removeParensF s.length s

/-! ## Stage 3: `col.upper().strip().replace(' ', '_')` -/

/-- Python `str.strip()`: drop leading and trailing whitespace. -/
def stripWs (s : List Char) : List Char :=
  (((s.dropWhile isWs).reverse).dropWhile isWs).reverse

/-- `.replace(' ', '_')`, per character. -/
def undChar (c : Char) : Char :=
  if c = ' ' then '_' else c

def replUnd (s : List Char) : List Char :=
  s.map undChar

/-- One column name through `_clean_column_names` (identical in
`LocalDataWrangler` and `s3DataWrangler`): collapse whitespace, delete
`\s*\([^)]*\)` spans, upper-case, strip, replace spaces by underscores. -/
def cleanName (s : List Char) : List Char :=
  replUnd (stripWs ((removeParens (collapseWs s)).map upChar))

/-- `_clean_column_names` on the whole column list. -/
def cleanColumnNames (cols : List (List Char)) : List (List Char) :=
  cols.map cleanName

/-! ## Properties of the paren-removal pass -/

/-- No `(` in the string has a `)` anywhere after it (so `\s*\([^)]*\)`
cannot match at any position). -/
def NoOC : List Char → Prop
  | [] => True
  | c :: cs => (c = '(' → ')' ∉ cs) ∧ NoOC cs

theorem noOC_nil : NoOC [] := trivial

theorem noOC_cons_iff (c : Char) (cs : List Char) :
    NoOC (c :: cs) ↔ (c = '(' → ')' ∉ cs) ∧ NoOC cs := Iff.rfl

theorem noOC_of_sublist {l1 l2 : List Char} (h : List.Sublist l1 l2)
    (h2 : NoOC l2) : NoOC l1 := by
  induction h with
  | slnil => exact trivial
  | cons a _ ih => exact ih ((noOC_cons_iff _ _).mp h2).2
  | cons₂ a h ih =>
    rw [noOC_cons_iff] at h2 ⊢
    exact ⟨fun hop hin => h2.1 hop (h.subset hin), ih h2.2⟩

theorem noOC_map {f : Char → Char} (hop : ∀ c, f c = '(' → c = '(')
    (hcl : ∀ c, f c = ')' → c = ')') {l : List Char} (h : NoOC l) :
    NoOC (l.map f) := by
  induction l with
  | nil => exact trivial
  | cons c cs ih =>
    rw [noOC_cons_iff] at h
    rw [List.map_cons, noOC_cons_iff]
    refine ⟨fun hfc hin => ?_, ih h.2⟩
    obtain ⟨d, hd, hfd⟩ := List.mem_map.mp hin
    exact h.1 (hop c hfc) (by rw [← hcl d hfd]; exact hd)

theorem len_dropWhile_le (p : Char → Bool) (l : List Char) :
    (l.dropWhile p).length ≤ l.length :=
  (List.dropWhile_suffix p).sublist.length_le

theorem parenMatch_some (s rest : List Char) (h : parenMatch s = some rest) :
    ∃ u, s.dropWhile isWs = '(' :: u ∧ ')' ∈ u ∧ rest.length + 2 ≤ s.length ∧ rest ⊆ s := by
  unfold parenMatch at h
  split at h
  · exact absurd h (by simp)
  · rename_i a u hdw
    split at h
    · rename_i ha
      subst ha
      split at h
      · exact absurd h (by simp)
      · rename_i x rest2 heq
        injection h with h
        subst h
        refine ⟨u, hdw, ?_, ?_, ?_⟩
        · have hne : u.dropWhile (fun c => !(c = ')')) ≠ [] := by
            rw [heq]; simp
          have hx : (fun c => !(c = ')')) ((u.dropWhile (fun c => !(c = ')'))).head hne) = false :=
            List.head_dropWhile_not (fun c => !(c = ')')) u hne
          have hxh : (u.dropWhile (fun c => !(c = ')'))).head hne = x := by
            simp [heq]
          rw [hxh] at hx
          have hx2 : x = ')' := by simpa using hx
          subst hx2
          exact (List.dropWhile_suffix _).subset (by rw [heq]; exact List.mem_cons_self _ _)
        · have h1 : ('(' :: u).length ≤ s.length := by
            rw [← hdw]; exact len_dropWhile_le _ _
          have h2 : (u.dropWhile (fun c => !(c = ')'))).length ≤ u.length :=
            len_dropWhile_le _ _
          rw [heq] at h2
          simp only [List.length_cons] at h1 h2
          omega
        · intro b hb
          have hbu : b ∈ u := (List.dropWhile_suffix _).subset
            (by rw [heq]; exact List.mem_cons_of_mem _ hb)
          exact (List.dropWhile_suffix isWs).subset
            (by rw [hdw]; exact List.mem_cons_of_mem _ hbu)
    · exact absurd h (by simp)

theorem parenMatch_open_none (cs : List Char)
    (h : parenMatch ('(' :: cs) = none) : ')' ∉ cs := by
  intro hin
  unfold parenMatch at h
  split at h
  · rename_i heq
    rw [List.dropWhile_cons] at heq
    have hop : isWs '(' = false := by decide
    rw [hop] at heq
    simp at heq
  · rename_i a u heq
    rw [List.dropWhile_cons] at heq
    have hop : isWs '(' = false := by decide
    rw [hop] at heq
    simp only [Bool.false_eq_true, if_false] at heq
    injection heq with ha hu
    subst hu
    rw [if_pos ha.symm] at h
    split at h
    · rename_i heq2
      rw [List.dropWhile_eq_nil_iff] at heq2
      have := heq2 ')' hin
      simp at this
    · exact absurd h (by simp)

theorem removeParensF_nilF (f : Nat) : removeParensF f [] = [] := by
  cases f <;> rfl

theorem removeParensF_cons_some (f : Nat) (c : Char) (cs rest : List Char)
    (h : parenMatch (c :: cs) = some rest) :
    removeParensF (f + 1) (c :: cs) = removeParensF f rest := by
  have he : removeParensF (f + 1) (c :: cs) =
      match parenMatch (c :: cs) with
      | some rest => removeParensF f rest
      | none => c :: removeParensF f cs := rfl
  rw [he, h]

theorem removeParensF_cons_none (f : Nat) (c : Char) (cs : List Char)
    (h : parenMatch (c :: cs) = none) :
    removeParensF (f + 1) (c :: cs) = c :: removeParensF f cs := by
  have he : removeParensF (f + 1) (c :: cs) =
      match parenMatch (c :: cs) with
      | some rest => removeParensF f rest
      | none => c :: removeParensF f cs := rfl
  rw [he, h]

theorem removeParensF_irrel : ∀ (f1 : Nat) (s : List Char) (f2 : Nat),
    s.length ≤ f1 → s.length ≤ f2 → removeParensF f1 s = removeParensF f2 s := by
  intro f1
  induction f1 with
  | zero =>
    intro s f2 h1 _
    have hs : s = [] := List.length_eq_zero.mp (Nat.le_zero.mp h1)
    subst hs
    rw [removeParensF_nilF, removeParensF_nilF]
  | succ f ih =>
    intro s f2 h1 h2
    cases s with
    | nil => rw [removeParensF_nilF, removeParensF_nilF]
    | cons c cs =>
      cases f2 with
      | zero => simp at h2
      | succ f2b =>
        simp only [List.length_cons] at h1 h2
        cases hpm : parenMatch (c :: cs) with
        | some rest =>
          obtain ⟨u, _, _, hlen, _⟩ := parenMatch_some _ _ hpm
          simp only [List.length_cons] at hlen
          rw [removeParensF_cons_some f c cs rest hpm,
              removeParensF_cons_some f2b c cs rest hpm]
          exact ih rest f2b (by omega) (by omega)
        | none =>
          rw [removeParensF_cons_none f c cs hpm,
              removeParensF_cons_none f2b c cs hpm]
          rw [ih cs f2b (by omega) (by omega)]

theorem removeParensF_subset : ∀ (f : Nat) (s : List Char), s.length ≤ f →
    ∀ a ∈ removeParensF f s, a ∈ s := by
  intro f
  induction f with
  | zero =>
    intro s _ a ha
    simp only [removeParensF] at ha
    exact absurd ha (List.not_mem_nil a)
  | succ f ih =>
    intro s hs a ha
    cases s with
    | nil => rw [removeParensF_nilF] at ha; exact absurd ha (List.not_mem_nil a)
    | cons c cs =>
      simp only [List.length_cons] at hs
      cases hpm : parenMatch (c :: cs) with
      | some rest =>
        obtain ⟨u, _, _, hlen, hsub⟩ := parenMatch_some _ _ hpm
        simp only [List.length_cons] at hlen
        rw [removeParensF_cons_some f c cs rest hpm] at ha
        exact hsub (ih rest (by omega) a ha)
      | none =>
        rw [removeParensF_cons_none f c cs hpm] at ha
        rcases List.mem_cons.mp ha with h | h
        · exact h ▸ List.mem_cons_self c cs
        · exact List.mem_cons_of_mem c (ih cs (by omega) a h)

theorem removeParensF_noOC : ∀ (f : Nat) (s : List Char), s.length ≤ f →
    NoOC (removeParensF f s) := by
  intro f
  induction f with
  | zero =>
    intro s _
    simp only [removeParensF]
    exact noOC_nil
  | succ f ih =>
    intro s hs
    cases s with
    | nil => rw [removeParensF_nilF]; exact noOC_nil
    | cons c cs =>
      simp only [List.length_cons] at hs
      cases hpm : parenMatch (c :: cs) with
      | some rest =>
        obtain ⟨u, _, _, hlen, _⟩ := parenMatch_some _ _ hpm
        simp only [List.length_cons] at hlen
        rw [removeParensF_cons_some f c cs rest hpm]
        exact ih rest (by omega)
      | none =>
        rw [removeParensF_cons_none f c cs hpm]
        rw [noOC_cons_iff]
        refine ⟨fun hc hin => ?_, ih cs (by omega)⟩
        subst hc
        exact parenMatch_open_none cs hpm (removeParensF_subset f cs (by omega) ')' hin)

theorem removeParensF_id_of_noOC : ∀ (f : Nat) (s : List Char), s.length ≤ f →
    NoOC s → removeParensF f s = s := by
  intro f
  induction f with
  | zero =>
    intro s h1 _
    have hs : s = [] := List.length_eq_zero.mp (Nat.le_zero.mp h1)
    subst hs
    rfl
  | succ f ih =>
    intro s hs hoc
    cases s with
    | nil => rw [removeParensF_nilF]
    | cons c cs =>
      simp only [List.length_cons] at hs
      cases hpm : parenMatch (c :: cs) with
      | some rest =>
        exfalso
        obtain ⟨u, hdw, hcl, _, _⟩ := parenMatch_some _ _ hpm
        have hsub : List.Sublist ('(' :: u) (c :: cs) := by
          rw [← hdw]; exact (List.dropWhile_suffix isWs).sublist
        have hoc2 : NoOC ('(' :: u) := noOC_of_sublist hsub hoc
        exact ((noOC_cons_iff _ _).mp hoc2).1 rfl hcl
      | none =>
        rw [removeParensF_cons_none f c cs hpm]
        rw [ih cs (by omega) ((noOC_cons_iff _ _).mp hoc).2]

theorem removeParens_noOC (s : List Char) : NoOC (removeParens s) :=
  removeParensF_noOC s.length s (Nat.le_refl _)

theorem removeParens_subset (s : List Char) : ∀ a ∈ removeParens s, a ∈ s :=
  removeParensF_subset s.length s (Nat.le_refl _)

theorem removeParens_id_of_noOC (s : List Char) (h : NoOC s) : removeParens s = s :=
  removeParensF_id_of_noOC s.length s (Nat.le_refl _) h

/-! ## Properties of the whitespace-collapsing pass -/

theorem wordsF_nilF (f : Nat) : wordsF f [] = [] := by
  cases f <;> rfl

theorem wordsF_chars : ∀ (f : Nat) (s : List Char), s.length ≤ f →
    ∀ w ∈ wordsF f s, ∀ c ∈ w, isWs c = false := by
  intro f
  induction f with
  | zero =>
    intro s _ w hw
    simp only [wordsF] at hw
    exact absurd hw (List.not_mem_nil w)
  | succ f ih =>
    intro s hs w hw c hc
    cases s with
    | nil => rw [wordsF_nilF] at hw; exact absurd hw (List.not_mem_nil w)
    | cons a cs =>
      simp only [List.length_cons] at hs
      by_cases ha : isWs a
      · rw [wordsF, if_pos ha] at hw
        exact ih cs (by omega) w hw c hc
      · rw [wordsF, if_neg ha] at hw
        rcases List.mem_cons.mp hw with h | h
        · subst h
          rcases List.mem_cons.mp hc with h2 | h2
          · subst h2; exact Bool.of_not_eq_true ha
          · have := List.mem_takeWhile_imp h2
            simpa using this
        · have hlen : (cs.dropWhile (fun x => !isWs x)).length ≤ cs.length :=
            len_dropWhile_le _ _
          exact ih (cs.dropWhile (fun x => !isWs x)) (by omega) w h c hc

theorem wordsF_nows (f : Nat) (a : Char) (cs : List Char)
    (hf : (a :: cs).length ≤ f) (hn : ∀ c ∈ a :: cs, isWs c = false) :
    wordsF f (a :: cs) = [a :: cs] := by
  cases f with
  | zero => simp at hf
  | succ f =>
    have ha : ¬ isWs a = true := by
      rw [hn a (List.mem_cons_self a cs)]; simp
    rw [wordsF, if_neg ha]
    have htw : cs.takeWhile (fun x => !isWs x) = cs := by
      rw [List.takeWhile_eq_self_iff]
      intro x hx
      rw [hn x (List.mem_cons_of_mem a hx)]
      rfl
    have hdw : cs.dropWhile (fun x => !isWs x) = [] := by
      rw [List.dropWhile_eq_nil_iff]
      intro x hx
      rw [hn x (List.mem_cons_of_mem a hx)]
      rfl
    rw [htw, hdw, wordsF_nilF]

theorem mem_joinWords (ws : List (List Char)) (c : Char) (h : c ∈ joinWords ws) :
    (∃ w ∈ ws, c ∈ w) ∨ c = ' ' := by
  induction ws with
  | nil => exact absurd h (List.not_mem_nil c)
  | cons w ws ih =>
    cases ws with
    | nil =>
      left
      exact ⟨w, List.mem_cons_self _ _, h⟩
    | cons w2 rest =>
      have hj : joinWords (w :: w2 :: rest) = w ++ ' ' :: joinWords (w2 :: rest) := rfl
      rw [hj] at h
      rcases List.mem_append.mp h with h | h
      · exact Or.inl ⟨w, List.mem_cons_self _ _, h⟩
      · rcases List.mem_cons.mp h with h | h
        · exact Or.inr h
        · rcases ih h with ⟨w3, hw3, hc⟩ | h2
          · exact Or.inl ⟨w3, List.mem_cons_of_mem _ hw3, hc⟩
          · exact Or.inr h2

theorem collapseWs_onlySpace (s : List Char) (c : Char) (h : c ∈ collapseWs s)
    (hws : isWs c = true) : c = ' ' := by
  rcases mem_joinWords _ c h with ⟨w, hw, hc⟩ | h2
  · have := wordsF_chars s.length s (Nat.le_refl _) w hw c hc
    rw [this] at hws
    exact absurd hws (by simp)
  · exact h2

theorem collapseWs_id_of_noWs (s : List Char) (hn : ∀ c ∈ s, isWs c = false) :
    collapseWs s = s := by
  cases s with
  | nil => rfl
  | cons a cs =>
    unfold collapseWs
    rw [wordsF_nows _ a cs (Nat.le_refl _) hn]
    rfl

/-! ## Properties of strip / replace and assembly of the transformation -/

theorem dropWhile_id_of_false (p : Char → Bool) (l : List Char)
    (h : ∀ c ∈ l, p c = false) : l.dropWhile p = l := by
  cases l with
  | nil => rfl
  | cons a cs =>
    rw [List.dropWhile_cons, h a (List.mem_cons_self a cs)]
    simp

theorem stripWs_sublist (s : List Char) : List.Sublist (stripWs s) s := by
  unfold stripWs
  have h1 : List.Sublist ((s.dropWhile isWs).reverse.dropWhile isWs)
      (s.dropWhile isWs).reverse := (List.dropWhile_suffix isWs).sublist
  have h2 : List.Sublist ((s.dropWhile isWs).reverse.dropWhile isWs).reverse
      (s.dropWhile isWs).reverse.reverse := List.reverse_sublist.mpr h1
  rw [List.reverse_reverse] at h2
  exact h2.trans (List.dropWhile_suffix isWs).sublist

theorem stripWs_id_of_noWs (s : List Char) (hn : ∀ c ∈ s, isWs c = false) :
    stripWs s = s := by
  unfold stripWs
  rw [dropWhile_id_of_false isWs s hn]
  rw [dropWhile_id_of_false isWs s.reverse (fun c hc => hn c (List.mem_reverse.mp hc))]
  exact List.reverse_reverse s

theorem map_id_of_fixed (f : Char → Char) (l : List Char)
    (h : ∀ c ∈ l, f c = c) : l.map f = l := by
  induction l with
  | nil => rfl
  | cons a cs ih =>
    rw [List.map_cons, h a (List.mem_cons_self a cs),
        ih (fun c hc => h c (List.mem_cons_of_mem a hc))]

theorem undChar_eq_open (c : Char) (h : undChar c = '(') : c = '(' := by
  unfold undChar at h
  by_cases hc : c = ' '
  · rw [if_pos hc] at h; exact absurd h (by decide)
  · rwa [if_neg hc] at h

theorem undChar_eq_close (c : Char) (h : undChar c = ')') : c = ')' := by
  unfold undChar at h
  by_cases hc : c = ' '
  · rw [if_pos hc] at h; exact absurd h (by decide)
  · rwa [if_neg hc] at h

theorem cleanName_noWs (s : List Char) : ∀ c ∈ cleanName s, isWs c = false := by
  intro c hc
  unfold cleanName replUnd at hc
  obtain ⟨d, hd, hdc⟩ := List.mem_map.mp hc
  have hdY : d ∈ (removeParens (collapseWs s)).map upChar :=
    (stripWs_sublist _).subset hd
  obtain ⟨e, he, hed⟩ := List.mem_map.mp hdY
  have heC : e ∈ collapseWs s := removeParens_subset _ e he
  by_cases hsp : d = ' '
  · subst hsp
    rw [← hdc]
    unfold undChar
    rw [if_pos rfl]
    decide
  · have hdd : undChar d = d := by unfold undChar; rw [if_neg hsp]
    rw [← hdc, hdd]
    by_contra hws
    have hws2 : isWs d = true := Bool.of_not_eq_false hws
    rw [← hed] at hws2
    have hwe : isWs e = true := isWs_upChar e hws2
    have hesp : e = ' ' := collapseWs_onlySpace s e heC hwe
    subst hesp
    have : upChar ' ' = ' ' := by decide
    rw [this] at hed
    exact hsp hed.symm

theorem cleanName_noOC (s : List Char) : NoOC (cleanName s) := by
  unfold cleanName replUnd
  have h1 : NoOC (removeParens (collapseWs s)) := removeParens_noOC _
  have h2 : NoOC ((removeParens (collapseWs s)).map upChar) :=
    noOC_map upChar_eq_open upChar_eq_close h1
  have h3 : NoOC (stripWs ((removeParens (collapseWs s)).map upChar)) :=
    noOC_of_sublist (stripWs_sublist _) h2
  exact noOC_map undChar_eq_open undChar_eq_close h3

theorem cleanName_upFixed (s : List Char) : ∀ c ∈ cleanName s, upChar c = c := by
  intro c hc
  unfold cleanName replUnd at hc
  obtain ⟨d, hd, hdc⟩ := List.mem_map.mp hc
  have hdY : d ∈ (removeParens (collapseWs s)).map upChar :=
    (stripWs_sublist _).subset hd
  obtain ⟨e, _, hed⟩ := List.mem_map.mp hdY
  by_cases hsp : d = ' '
  · subst hsp
    have hu : undChar ' ' = '_' := by decide
    rw [hu] at hdc
    rw [← hdc]
    decide
  · have hdd : undChar d = d := by unfold undChar; rw [if_neg hsp]
    rw [hdd] at hdc
    rw [← hdc, ← hed]
    exact upChar_idem e

theorem removeParens_match_head (s rest : List Char)
    (h : parenMatch s = some rest) : removeParens s = removeParens rest := by
  cases s with
  | nil =>
    exfalso
    have : parenMatch [] = none := rfl
    rw [this] at h
    exact absurd h (by simp)
  | cons c cs =>
    obtain ⟨u, _, _, hlen, _⟩ := parenMatch_some _ _ h
    simp only [List.length_cons] at hlen
    unfold removeParens
    simp only [List.length_cons]
    rw [removeParensF_cons_some cs.length c cs rest h]
    exact removeParensF_irrel cs.length rest rest.length (by omega) (Nat.le_refl _)

theorem removeParens_cons_none (c : Char) (cs : List Char)
    (h : parenMatch (c :: cs) = none) :
    removeParens (c :: cs) = c :: removeParens cs := by
  unfold removeParens
  simp only [List.length_cons]
  exact removeParensF_cons_none cs.length c cs h

theorem parenMatch_at_span (ws inner b : List Char)
    (hws : ∀ c ∈ ws, isWs c = true) (hi : ')' ∉ inner) :
    parenMatch (ws ++ '(' :: (inner ++ ')' :: b)) = some b := by
  unfold parenMatch
  have hdw : (ws ++ '(' :: (inner ++ ')' :: b)).dropWhile isWs =
      '(' :: (inner ++ ')' :: b) := by
    rw [List.dropWhile_append_of_pos hws, List.dropWhile_cons]
    have : isWs '(' = false := by decide
    rw [this]
    simp
  rw [hdw]
  show (if ('(' : Char) = '(' then
      match (inner ++ ')' :: b).dropWhile (fun c => !(c = ')')) with
      | [] => none
      | _ :: rest => some rest
    else none) = some b
  rw [if_pos rfl]
  have hdw2 : (inner ++ ')' :: b).dropWhile (fun c => !(c = ')')) = ')' :: b := by
    rw [List.dropWhile_append_of_pos]
    · rw [List.dropWhile_cons]
      simp
    · intro x hx
      simp only [Bool.not_eq_true']
      rw [decide_eq_false_iff_not]
      intro hxe
      exact hi (hxe ▸ hx)
  rw [hdw2]

theorem parenMatch_plain_cons (c : Char) (cs : List Char)
    (hc : isWs c = false) (hop : c ≠ '(') : parenMatch (c :: cs) = none := by
  unfold parenMatch
  have hdw : (c :: cs).dropWhile isWs = c :: cs := by
    rw [List.dropWhile_cons, hc]
    simp
  rw [hdw]
  show (if c = '(' then
      match cs.dropWhile (fun c => !(c = ')')) with
      | [] => none
      | _ :: rest => some rest
    else none) = none
  rw [if_neg hop]

/-- Claim C4: the column-name transformation of `_clean_column_names` is
idempotent: applying the three-stage pipeline (collapse whitespace, remove
parenthesized spans, upper-case / strip / underscore) twice gives the same
result as applying it once, for every string. -/
theorem claim_C4_cleanName_idempotent (s : List Char) :
    cleanName (cleanName s) = cleanName s := by
  have hNoWs := cleanName_noWs s
  have h1 : collapseWs (cleanName s) = cleanName s :=
    collapseWs_id_of_noWs _ hNoWs
  have h2 : removeParens (cleanName s) = cleanName s :=
    removeParens_id_of_noOC _ (cleanName_noOC s)
  have h3 : (cleanName s).map upChar = cleanName s :=
    map_id_of_fixed _ _ (cleanName_upFixed s)
  have h4 : stripWs (cleanName s) = cleanName s :=
    stripWs_id_of_noWs _ hNoWs
  have h5 : replUnd (cleanName s) = cleanName s := by
    unfold replUnd
    refine map_id_of_fixed _ _ (fun c hc => ?_)
    unfold undChar
    rw [if_neg]
    intro hsp
    have := hNoWs c hc
    rw [hsp] at this
    exact absurd this (by decide)
  calc cleanName (cleanName s)
      = replUnd (stripWs ((removeParens (collapseWs (cleanName s))).map upChar)) := rfl
    _ = cleanName s := by rw [h1, h2, h3, h4, h5]

/-- Claim C7: the transformation removes every parenthesized span together
with the whitespace run immediately preceding it, at any position in the
name (here: prefix `a` of non-whitespace, non-`(` characters, a span
`' ' ( inner )`, and an arbitrary tail `b`); concretely,
`transform "Unit Price (USD)" = "UNIT_PRICE"`. -/
theorem claim_C7_paren_removal (a inner b : List Char)
    (ha : ∀ c ∈ a, isWs c = false ∧ c ≠ '(') (hi : ')' ∉ inner) :
    removeParens (a ++ ' ' :: '(' :: (inner ++ ')' :: b)) = a ++ removeParens b
    ∧ cleanName ("Unit Price (USD)".toList) = "UNIT_PRICE".toList := by
  constructor
  · induction a with
    | nil =>
      simp only [List.nil_append]
      have hm : parenMatch (' ' :: '(' :: (inner ++ ')' :: b)) = some b := by
        have : (' ' :: '(' :: (inner ++ ')' :: b)) =
            [' '] ++ '(' :: (inner ++ ')' :: b) := rfl
        rw [this]
        refine parenMatch_at_span [' '] inner b ?_ hi
        intro c hc
        simp only [List.mem_singleton] at hc
        subst hc
        decide
      rw [removeParens_match_head _ _ hm]
    | cons c a2 ih =>
      have hc := ha c (List.mem_cons_self c a2)
      have hm : parenMatch (c :: (a2 ++ ' ' :: '(' :: (inner ++ ')' :: b))) = none :=
        parenMatch_plain_cons c _ hc.1 hc.2
      have step := removeParens_cons_none c _ hm
      rw [List.cons_append, step,
          ih (fun x hx => ha x (List.mem_cons_of_mem c hx))]
      rfl
  · rfl

theorem claim_C7_witness :
    removeParens (['X'] ++ ' ' :: '(' :: (['u', 's', 'd'] ++ ')' :: ['!'])) =
      ['X'] ++ removeParens ['!']
    ∧ cleanName ("Unit Price (USD)".toList) = "UNIT_PRICE".toList :=
  claim_C7_paren_removal ['X'] ['u', 's', 'd'] ['!'] (by decide) (by decide)

/-! ## DataFrame model and `_clean_dataframe` -/

/-- Inferred column type: pandas `object` (free-form text) versus any other
inferred dtype (numeric etc.). -/
inductive Dtype
  | object
  | numeric
deriving DecidableEq

/-- A cell value: a string, a number, or a missing value (NaN). -/
inductive Val
  | vStr (s : List Char)
  | vNum (n : Int)
  | vNan
deriving DecidableEq

/-- A pandas DataFrame: ordered column names with inferred dtypes, a row
index, and row-major cells. -/
structure DFrame where
  names : List (List Char)
  dtypes : List Dtype
  index : List Nat
  rows : List (List Val)
deriving DecidableEq

/-- `df[col].str.strip().str.lower()` on one cell of an object column: a
string is stripped and lower-cased; any non-string entry (a number in a
mixed-type column, or NaN) becomes NaN under the `.str` accessor. -/
def normVal : Val → Val
  | .vStr s => .vStr ((stripWs s).map lowChar)
  | _ => .vNan

/-- The per-column loop `for col in df.select_dtypes(include=['object'])`:
cells in object columns are normalized, all other cells are untouched. -/
def normRow (dtypes : List Dtype) (row : List Val) : List Val :=
  List.zipWith (fun v dt => if dt = Dtype.object then normVal v else v) row dtypes

def stepVals (df : DFrame) : DFrame :=
  { df with rows := df.rows.map (normRow df.dtypes) }

/-- `df.drop_duplicates(...)` keep-first semantics: a row is kept iff it
does not equal any earlier row (`seen` accumulates the earlier rows). -/
def firstOccsAux (seen : List (List Val)) : List (List Val) → List (List Val)
  | [] => []
  | r :: rs => if r ∈ seen then firstOccsAux (r :: seen) rs else r :: firstOccsAux (r :: seen) rs

/-- Number of rows that are exact duplicates of an earlier row. -/
def dupCountAux (seen : List (List Val)) : List (List Val) → Nat
  | [] => 0
  | r :: rs => (if r ∈ seen then 1 else 0) + dupCountAux (r :: seen) rs

/-- `df.drop_duplicates(ignore_index=True, inplace=True)`: keep the first
occurrence of each distinct row and renumber the index from zero. -/
def dropDupRows (df : DFrame) : DFrame :=
  { df with rows := firstOccsAux [] df.rows,
            index := List.range (firstOccsAux [] df.rows).length }

/-- `df.columns = self._clean_column_names(df.columns)`. -/
def renameCols (df : DFrame) : DFrame :=
  { df with names := cleanColumnNames df.names }

/-- `_clean_dataframe` (identical in both wranglers): strip/lower object
columns, drop duplicate rows with a fresh zero-based index, rewrite the
column names. -/
def cleanDataframe (df : DFrame) : DFrame :=
  renameCols (dropDupRows (stepVals df))

theorem firstOccs_length : ∀ (l : List (List Val)) (seen : List (List Val)),
    (firstOccsAux seen l).length + dupCountAux seen l = l.length := by
  intro l
  induction l with
  | nil => intro seen; rfl
  | cons r rs ih =>
    intro seen
    have := ih (r :: seen)
    by_cases hr : r ∈ seen
    · rw [firstOccsAux, if_pos hr, dupCountAux, if_pos hr]
      simp only [List.length_cons]
      omega
    · rw [firstOccsAux, if_neg hr, dupCountAux, if_neg hr]
      simp only [List.length_cons]
      omega

theorem firstOccs_sublist : ∀ (l : List (List Val)) (seen : List (List Val)),
    List.Sublist (firstOccsAux seen l) l := by
  intro l
  induction l with
  | nil => intro seen; exact List.Sublist.refl []
  | cons r rs ih =>
    intro seen
    by_cases hr : r ∈ seen
    · rw [firstOccsAux, if_pos hr]
      exact (ih (r :: seen)).trans (List.sublist_cons_self r rs)
    · rw [firstOccsAux, if_neg hr]
      exact (ih (r :: seen)).cons₂ r

theorem firstOccs_mem : ∀ (l : List (List Val)) (seen : List (List Val))
    (a : List Val), a ∈ l → a ∈ seen ∨ a ∈ firstOccsAux seen l := by
  intro l
  induction l with
  | nil => intro seen a ha; exact absurd ha (List.not_mem_nil a)
  | cons r rs ih =>
    intro seen a ha
    by_cases hr : r ∈ seen
    · rw [firstOccsAux, if_pos hr]
      rcases List.mem_cons.mp ha with h | h
      · exact Or.inl (h ▸ hr)
      · rcases ih (r :: seen) a h with h2 | h2
        · rcases List.mem_cons.mp h2 with h3 | h3
          · exact Or.inl (h3 ▸ hr)
          · exact Or.inl h3
        · exact Or.inr h2
    · rw [firstOccsAux, if_neg hr]
      rcases List.mem_cons.mp ha with h | h
      · exact Or.inr (h ▸ List.mem_cons_self _ _)
      · rcases ih (r :: seen) a h with h2 | h2
        · rcases List.mem_cons.mp h2 with h3 | h3
          · exact Or.inr (h3 ▸ List.mem_cons_self _ _)
          · exact Or.inl h3
        · exact Or.inr (List.mem_cons_of_mem _ h2)

theorem firstOccs_nodup : ∀ (l : List (List Val)) (seen : List (List Val)),
    (firstOccsAux seen l).Nodup ∧ ∀ a ∈ firstOccsAux seen l, a ∉ seen := by
  intro l
  induction l with
  | nil =>
    intro seen
    exact ⟨List.nodup_nil, fun a ha => absurd ha (List.not_mem_nil a)⟩
  | cons r rs ih =>
    intro seen
    by_cases hr : r ∈ seen
    · rw [firstOccsAux, if_pos hr]
      obtain ⟨hnd, hns⟩ := ih (r :: seen)
      exact ⟨hnd, fun a ha => fun hin =>
        hns a ha (List.mem_cons_of_mem _ hin)⟩
    · rw [firstOccsAux, if_neg hr]
      obtain ⟨hnd, hns⟩ := ih (r :: seen)
      constructor
      · rw [List.nodup_cons]
        exact ⟨fun hin => hns r hin (List.mem_cons_self _ _), hnd⟩
      · intro a ha
        rcases List.mem_cons.mp ha with h | h
        · exact h ▸ hr
        · exact fun hin => hns a h (List.mem_cons_of_mem _ hin)

theorem stripWs_head (s : List Char) (c : Char)
    (h : (stripWs s).head? = some c) : isWs c = false := by
  have hpre : List.IsPrefix (((s.dropWhile isWs).reverse.dropWhile isWs).reverse)
      (s.dropWhile isWs) := by
    have h1 := List.dropWhile_suffix (l := (s.dropWhile isWs).reverse) isWs
    have h2 := List.reverse_prefix.mpr h1
    rwa [List.reverse_reverse] at h2
  obtain ⟨t, ht⟩ := hpre
  have hA : (s.dropWhile isWs).head? = some c := by
    rw [← ht, List.head?_append]
    unfold stripWs at h
    rw [h]
    rfl
  have hd := List.head?_dropWhile_not isWs s
  rw [hA] at hd
  exact hd

theorem stripWs_last (s : List Char) (c : Char)
    (h : (stripWs s).getLast? = some c) : isWs c = false := by
  unfold stripWs at h
  rw [List.getLast?_reverse] at h
  have hd := List.head?_dropWhile_not isWs (s.dropWhile isWs).reverse
  rw [h] at hd
  exact hd

theorem isWs_eq_false_of_lower_range (d : Char)
    (h : 97 ≤ d.toNat ∧ d.toNat ≤ 122) : isWs d = false := by
  simp only [isWs, Bool.or_eq_false_iff, decide_eq_false_iff_not]
  refine ⟨⟨⟨⟨⟨?_, ?_⟩, ?_⟩, ?_⟩, ?_⟩, ?_⟩ <;>
    (intro he; subst he; exact absurd h (by decide))

theorem isWs_lowChar (c : Char) (h : isWs (lowChar c) = true) : isWs c = true := by
  by_cases hc : 65 ≤ c.toNat ∧ c.toNat ≤ 90
  · exfalso
    have ht : (lowChar c).toNat = c.toNat + 32 := by
      rw [lowChar, if_pos hc]
      exact toNat_ofNat_small _ (by omega)
    have hf : isWs (lowChar c) = false :=
      isWs_eq_false_of_lower_range _ (by omega)
    rw [h] at hf
    exact absurd hf (by decide)
  · rwa [lowChar, if_neg hc] at h

theorem getLast?_map_eq (f : Char → Char) (l : List Char) :
    (l.map f).getLast? = l.getLast?.map f := by
  rw [List.getLast?_eq_head?_reverse, ← List.map_reverse, List.head?_map,
      List.getLast?_eq_head?_reverse]

theorem getElem?_zipWith_vd (f : Val → Dtype → Val) :
    ∀ (as : List Val) (bs : List Dtype) (i : Nat),
      (List.zipWith f as bs)[i]? = as[i]?.bind (fun a => bs[i]?.map (fun b => f a b)) := by
  intro as
  induction as with
  | nil => intro bs i; cases bs <;> cases i <;> simp
  | cons a as ih =>
    intro bs i
    cases bs with
    | nil => cases i <;> simp
    | cons b bs =>
      cases i with
      | zero => simp [List.zipWith]
      | succ n => simpa [List.zipWith] using ih bs n

/-- Claim C5: normalization removes exactly the rows that duplicate an
earlier row (comparing all columns, after the value-normalization pass that
precedes `drop_duplicates` in `_clean_dataframe`): the output row count is
at most the input row count and equals it minus the duplicate count; the
surviving rows are a subsequence of the normalized rows (first occurrences,
original relative order), pairwise distinct and complete, and the index is
renumbered contiguously from zero. -/
theorem claim_C5_drop_duplicates (df : DFrame) :
    (cleanDataframe df).rows.length ≤ df.rows.length
    ∧ (cleanDataframe df).rows.length + dupCountAux [] (stepVals df).rows = df.rows.length
    ∧ List.Sublist (cleanDataframe df).rows (stepVals df).rows
    ∧ (cleanDataframe df).rows.Nodup
    ∧ (∀ r, r ∈ (stepVals df).rows ↔ r ∈ (cleanDataframe df).rows)
    ∧ (cleanDataframe df).index = List.range (cleanDataframe df).rows.length := by
  have hrows : (cleanDataframe df).rows = firstOccsAux [] (stepVals df).rows := rfl
  have hlen0 : (stepVals df).rows.length = df.rows.length := by
    unfold stepVals
    simp
  have hlen := firstOccs_length (stepVals df).rows []
  refine ⟨?_, ?_, ?_, ?_, ?_, ?_⟩
  · rw [hrows]; omega
  · rw [hrows]; omega
  · rw [hrows]; exact firstOccs_sublist _ []
  · rw [hrows]; exact (firstOccs_nodup _ []).1
  · intro r
    constructor
    · intro hr
      rw [hrows]
      rcases firstOccs_mem _ [] r hr with h2 | h2
      · exact absurd h2 (List.not_mem_nil r)
      · exact h2
    · intro hr
      rw [hrows] at hr
      exact (firstOccs_sublist _ []).subset hr
  · rw [hrows]; rfl

/-- Claim C6: after the value-normalization pass of `_clean_dataframe`,
every cell of an object (free-form text) column is either missing or a
string with no leading/trailing whitespace and no upper-case ASCII letter,
while cells of columns of any other inferred dtype are unchanged. -/
theorem claim_C6_text_columns (df : DFrame) (r0 : List Val)
    (h : r0 ∈ df.rows) (j : Nat) :
    normRow df.dtypes r0 ∈ (stepVals df).rows
    ∧ (df.dtypes[j]? = some Dtype.object →
        ∀ v, (normRow df.dtypes r0)[j]? = some v →
          v = Val.vNan ∨ ∃ t, v = Val.vStr t
            ∧ (∀ c, t.head? = some c → isWs c = false)
            ∧ (∀ c, t.getLast? = some c → isWs c = false)
            ∧ (∀ c ∈ t, isUpperAscii c = false))
    ∧ (∀ dt, df.dtypes[j]? = some dt → dt ≠ Dtype.object →
        (normRow df.dtypes r0)[j]? = r0[j]?) := by
  refine ⟨?_, ?_, ?_⟩
  · unfold stepVals
    simp only
    exact List.mem_map.mpr ⟨r0, h, rfl⟩
  · intro hdt v hv
    rw [normRow, getElem?_zipWith_vd, hdt] at hv
    cases hr : r0[j]? with
    | none => rw [hr] at hv; exact absurd hv (by simp)
    | some a =>
      rw [hr] at hv
      have hv2 : some (if Dtype.object = Dtype.object then normVal a else a) = some v := hv
      rw [if_pos rfl] at hv2
      have hv3 : normVal a = v := Option.some.inj hv2
      cases a with
      | vNum n => exact Or.inl hv3.symm
      | vNan => exact Or.inl hv3.symm
      | vStr s =>
        right
        refine ⟨(stripWs s).map lowChar, hv3.symm, ?_, ?_, ?_⟩
        · intro c hc
          rw [List.head?_map] at hc
          cases hh : (stripWs s).head? with
          | none => rw [hh] at hc; exact absurd hc (by simp)
          | some c0 =>
            rw [hh] at hc
            have hc2 : some (lowChar c0) = some c := hc
            have hc3 : lowChar c0 = c := Option.some.inj hc2
            subst hc3
            have h0 : isWs c0 = false := stripWs_head s c0 hh
            cases hlc : isWs (lowChar c0) with
            | false => rfl
            | true => rw [isWs_lowChar c0 hlc] at h0; exact absurd h0 (by simp)
        · intro c hc
          rw [getLast?_map_eq] at hc
          cases hh : (stripWs s).getLast? with
          | none => rw [hh] at hc; exact absurd hc (by simp)
          | some c0 =>
            rw [hh] at hc
            have hc2 : some (lowChar c0) = some c := hc
            have hc3 : lowChar c0 = c := Option.some.inj hc2
            subst hc3
            have h0 : isWs c0 = false := stripWs_last s c0 hh
            cases hlc : isWs (lowChar c0) with
            | false => rfl
            | true => rw [isWs_lowChar c0 hlc] at h0; exact absurd h0 (by simp)
        · intro c hc
          obtain ⟨c0, _, hc0⟩ := List.mem_map.mp hc
          rw [← hc0]
          exact lowChar_not_upper c0
  · intro dt hdt hne
    rw [normRow, getElem?_zipWith_vd, hdt]
    cases hr : r0[j]? with
    | none => rfl
    | some a =>
      show some (if dt = Dtype.object then normVal a else a) = some a
      rw [if_neg hne]

/-- Example frame for the C6 witness: an object column and a numeric
column, one row whose text cell has surrounding blanks and a capital. -/
def c6df : DFrame :=
  { names := [['a'], ['b']]
    dtypes := [Dtype.object, Dtype.numeric]
    index := [0]
    rows := [[Val.vStr [' ', 'A', 'b', ' '], Val.vNum 3]] }

def c6row : List Val := [Val.vStr [' ', 'A', 'b', ' '], Val.vNum 3]

theorem claim_C6_witness :
    normRow c6df.dtypes c6row ∈ (stepVals c6df).rows
    ∧ (c6df.dtypes[0]? = some Dtype.object →
        ∀ v, (normRow c6df.dtypes c6row)[0]? = some v →
          v = Val.vNan ∨ ∃ t, v = Val.vStr t
            ∧ (∀ c, t.head? = some c → isWs c = false)
            ∧ (∀ c, t.getLast? = some c → isWs c = false)
            ∧ (∀ c ∈ t, isUpperAscii c = false))
    ∧ (∀ dt, c6df.dtypes[0]? = some dt → dt ≠ Dtype.object →
        (normRow c6df.dtypes c6row)[0]? = c6row[0]?) :=
  claim_C6_text_columns c6df c6row (by decide) 0

/-- Claim C10: in the strip/lower pass of `_clean_dataframe`, a cell of an
object column that is not a string (a number in a mixed-type column, or an
already-missing value) becomes NaN under the `.str` accessor, while a
string cell keeps (normalized) string content. -/
theorem claim_C10_nonstring_cells (df : DFrame) (r0 : List Val)
    (h : r0 ∈ df.rows) (j : Nat) (hdt : df.dtypes[j]? = some Dtype.object)
    (v : Val) (hv : r0[j]? = some v) :
    ((∀ t, v ≠ Val.vStr t) → (normRow df.dtypes r0)[j]? = some Val.vNan)
    ∧ (∀ t, v = Val.vStr t →
        (normRow df.dtypes r0)[j]? = some (Val.vStr ((stripWs t).map lowChar))) := by
  have hcell : (normRow df.dtypes r0)[j]? =
      some (if Dtype.object = Dtype.object then normVal v else v) := by
    rw [normRow, getElem?_zipWith_vd, hdt, hv]
    rfl
  rw [if_pos rfl] at hcell
  constructor
  · intro hns
    rw [hcell]
    cases v with
    | vStr t => exact absurd rfl (hns t)
    | vNum n => rfl
    | vNan => rfl
  · intro t ht
    subst ht
    rw [hcell]
    rfl

/-- Example frame for the C10 witness: a single object column whose one
cell is a number (as produced by CSV inference on a mixed column). -/
def c10df : DFrame :=
  { names := [['m']]
    dtypes := [Dtype.object]
    index := [0]
    rows := [[Val.vNum 7]] }

theorem claim_C10_witness :
    ((∀ t, Val.vNum 7 ≠ Val.vStr t) →
      (normRow c10df.dtypes [Val.vNum 7])[0]? = some Val.vNan)
    ∧ (∀ t, Val.vNum 7 = Val.vStr t →
        (normRow c10df.dtypes [Val.vNum 7])[0]? =
          some (Val.vStr ((stripWs t).map lowChar))) :=
  claim_C10_nonstring_cells c10df [Val.vNum 7] (by decide) 0 (by decide)
    (Val.vNum 7) (by decide)

/-! ## No-mutation model of `_clean_dataframe` (claim C9)

`df = df.copy()` allocates a fresh object and rebinds the local name; the
subsequent column assignments, `drop_duplicates(..., inplace=True)` and the
`df.columns = ...` assignment mutate that copy in place.  We model the
object store explicitly: slot 0 holds the caller's frame, `df.copy()`
appends a new slot, and each in-place statement rewrites the slot the local
name points to. -/

def mutateAt : List DFrame → Nat → (DFrame → DFrame) → List DFrame
  | [], _, _ => []
  | d :: ds, 0, f => f d :: ds
  | d :: ds, n + 1, f => d :: mutateAt ds n f

/-- Execution of `_clean_dataframe` over the object store: returns the
final store together with the slot the local `df` refers to. -/
def cleanExec (input : DFrame) : List DFrame × Nat :=
  let store0 := [input]
  let store1 := store0 ++ [input]
  let cur := 1
  let store2 := mutateAt store1 cur stepVals
  let store3 := mutateAt store2 cur dropDupRows
  let store4 := mutateAt store3 cur renameCols
  (store4, cur)

/-- Claim C9: `_clean_dataframe` never mutates its input: after the call
the caller's slot still holds exactly the original frame (columns, dtypes,
index and rows included), and the result is a distinct object holding the
cleaned frame. -/
theorem claim_C9_no_mutation (df : DFrame) :
    (cleanExec df).1[0]? = some df
    ∧ (cleanExec df).1[(cleanExec df).2]? = some (cleanDataframe df)
    ∧ (cleanExec df).2 ≠ 0 := by
  exact ⟨rfl, rfl, Nat.one_ne_zero⟩

/-! ## `SchemaGenerator.__call__` (claim C8) -/

/-- The JSON-Schema document built by `SchemaGenerator.__call__` before it
is serialized: fixed `$schema`/`title`/`type` entries, a `properties` map
and a `required` array. -/
structure SchemaDoc where
  schemaKey : List Char
  title : List Char
  jtype : List Char
  properties : List (List Char × List Char)
  required : List (List Char)
deriving DecidableEq

/-- `SchemaGenerator.__call__`: starts from the fixed skeleton and adds
`properties[feature] = {"type": "number"}` for each feature in order;
`required` is the feature list itself. -/
def generateSchema (features : List (List Char)) : SchemaDoc :=
  { schemaKey := ("http://json-schema.org/draft-07/schema#").toList
    title := ("Generated schema for Root").toList
    jtype := ("object").toList
    properties := features.map (fun f => (f, ("number").toList))
    required := features }

theorem lookup_map_const (features : List (List Char)) (c : List Char)
    (hc : c ∈ features) (nm : List Char) :
    List.lookup c (features.map (fun f => (f, nm))) = some nm := by
  induction features with
  | nil => exact absurd hc (List.not_mem_nil c)
  | cons f rest ih =>
    rw [List.map_cons, List.lookup_cons]
    by_cases hcf : c = f
    · have : (c == f) = true := beq_iff_eq.mpr hcf
      rw [this]
    · have : (c == f) = false := beq_eq_false_iff_ne.mpr hcf
      rw [this]
      exact ih (by
        rcases List.mem_cons.mp hc with h | h
        · exact absurd h hcf
        · exact h)

/-- Claim C8: for every ordered column list the generated document has
`type = "object"`, `required` equal to the full column list in order, and
`properties[name] = {"type": "number"}` for every listed name, independent
of any data values. -/
theorem claim_C8_schema (features : List (List Char)) (c : List Char)
    (hc : c ∈ features) :
    (generateSchema features).jtype = ("object").toList
    ∧ (generateSchema features).required = features
    ∧ List.lookup c (generateSchema features).properties = some (("number").toList) := by
  refine ⟨rfl, rfl, ?_⟩
  exact lookup_map_const features c hc _

theorem claim_C8_witness :
    (generateSchema [("age").toList, ("income").toList]).jtype = ("object").toList
    ∧ (generateSchema [("age").toList, ("income").toList]).required =
        [("age").toList, ("income").toList]
    ∧ List.lookup ("age").toList
        (generateSchema [("age").toList, ("income").toList]).properties =
        some (("number").toList) :=
  claim_C8_schema [("age").toList, ("income").toList] (("age").toList) (by decide)

/-! ## Ingestion loops of the two wranglers (claims C1, C2, C3)

The decoders (`pd.read_csv` / `read_json` / `read_parquet`) and the object
fetch are external collaborators and enter as oracle parameters returning
`Except`.  Python attribute lookups that the source performs on the wrong
type are modelled by the (absent) attribute tables below. -/

inductive PyErr
  | attributeError (msg : List Char)
  | valueError (msg : List Char)
  | parseError (msg : List Char)
  | indexError (msg : List Char)
deriving DecidableEq

/-- `str(e)` for the exceptions above. -/
def pyErrMsg : PyErr → List Char
  | .attributeError m => m
  | .valueError m => m
  | .parseError m => m
  | .indexError m => m

/-- The diagnostic `f"Error processing {name}: {str(e)}"`. -/
def diagMsg (n : List Char) (e : PyErr) : List Char :=
  ("Error processing ").toList ++ n ++ (": ").toList ++ pyErrMsg e

/-- A `pathlib` path as yielded by `directory.glob('*.csv')`. -/
structure PyPath where
  name : List Char
deriving DecidableEq

/-- `Path.stem`: the name minus its last suffix; a name without a dot (or
whose only dot is leading) is its own stem. -/
def pathStem (n : List Char) : List Char :=
  match n.reverse.dropWhile (fun c => !(c = '.')) with
  | [] => n
  | _ :: rest => if rest = [] then n else rest.reverse

def PyPath.stem (p : PyPath) : List Char := pathStem p.name

/-- `pathlib.PosixPath` provides no `endswith` method (`endswith` belongs
to `str`), so the guard `file_path.endswith('.csv')` in
`LocalDataWrangler.__call__` raises `AttributeError` on every file. -/
def pathEndswithAttr : Option (PyPath → List Char → Bool) := none

/-- The `try` body of `LocalDataWrangler.__call__` for one file:
`file_path.endswith(...)` dispatch (an attribute lookup that fails on a
`Path`), then the format decoders, else `ValueError`. -/
def localTryBody (readCsv readJson readParquet : PyPath → Except PyErr DFrame)
    (p : PyPath) : Except PyErr DFrame :=
  match pathEndswithAttr with
  | none => .error (.attributeError (("PosixPath object has no attribute endswith").toList))
  | some endsWith =>
    if endsWith p ((".csv").toList) then readCsv p
    else if endsWith p ((".json").toList) then readJson p
    else if endsWith p ((".parquet").toList) then readParquet p
    else .error (.valueError (("Unsupported file type").toList))

/-- Python dict assignment `dfs[key] = v` (overwrite in place, else append,
insertion order preserved). -/
def dictInsert : List (List Char × DFrame) → List Char → DFrame →
    List (List Char × DFrame)
  | [], k, v => [(k, v)]
  | (k0, v0) :: rest, k, v =>
    if k0 = k then (k0, v) :: rest else (k0, v0) :: dictInsert rest k v

/-- The loop of `LocalDataWrangler.__call__` over the (sorted) glob result:
on success the cleaned frame is stored under the file stem; on any
exception the per-file handler prints
`f"Error processing {file_path.name}: ..."` (a `Path` does have `.name`)
and the loop continues. -/
def localRunAux (readCsv readJson readParquet : PyPath → Except PyErr DFrame) :
    List (List Char × DFrame) → List (List Char) → List PyPath →
    List (List Char × DFrame) × List (List Char)
  | dfs, diags, [] => (dfs, diags)
  | dfs, diags, p :: ps =>
    match localTryBody readCsv readJson readParquet p with
    | .ok dfRaw =>
      localRunAux readCsv readJson readParquet
        (dictInsert dfs p.stem (cleanDataframe dfRaw)) diags ps
    | .error e =>
      localRunAux readCsv readJson readParquet
        dfs (diags ++ [diagMsg p.name e]) ps

def localRun (readCsv readJson readParquet : PyPath → Except PyErr DFrame)
    (files : List PyPath) : List (List Char × DFrame) × List (List Char) :=
  localRunAux readCsv readJson readParquet [] [] files

/-- `suffix in`-style `str.endswith`. -/
def endswithL (s suf : List Char) : Bool := suf.isSuffixOf s

/-- Lexicographic order on strings by code point (Python `sorted`). -/
def leStr : List Char → List Char → Bool
  | [], _ => true
  | _ :: _, [] => false
  | a :: as, b :: bs =>
    if a.toNat < b.toNat then true
    else if b.toNat < a.toNat then false
    else leStr as bs

def insertSorted (x : List Char) : List (List Char) → List (List Char)
  | [] => [x]
  | y :: ys => if leStr x y then x :: y :: ys else y :: insertSorted x ys

def sortStrs : List (List Char) → List (List Char)
  | [] => []
  | x :: xs => insertSorted x (sortStrs xs)

/-- The `try` body of `s3DataWrangler.__call__` for one key: fetch the
object, then dispatch on `file_key.endswith(...)` (`file_key` is a `str`,
so this works), else `ValueError`. -/
def s3TryBody (fetch : List Char → Except PyErr (List Nat))
    (decCsv decJson decParq : List Nat → Except PyErr DFrame)
    (k : List Char) : Except PyErr DFrame :=
  match fetch k with
  | .error e => .error e
  | .ok body =>
    if endswithL k ((".csv").toList) then decCsv body
    else if endswithL k ((".json").toList) then decJson body
    else if endswithL k ((".parquet").toList) then decParq body
    else .error (.valueError (("Unsupported file type").toList))

/-- `str` objects have no `name` attribute, so the handler
`print(f'Error processing {file_key.name}: ...')` in the `except` block of
`s3DataWrangler.__call__` itself raises `AttributeError`. -/
def strNameAttr : Option (List Char → List Char) := none

/-- The `except` block of `s3DataWrangler.__call__`: it evaluates
`file_key.name`; if that lookup fails the new exception escapes the block. -/
def s3Handler (k : List Char) (e : PyErr) : Except PyErr (List Char) :=
  match strNameAttr with
  | none => .error (.attributeError (("str object has no attribute name").toList))
  | some nameFn => .ok (diagMsg (nameFn k) e)

/-- The loop of `s3DataWrangler.__call__` over `sorted(self.file_keys)`:
on success the cleaned frame is stored under the full key; on a per-key
exception the handler runs — and if the handler itself raises, that error
propagates out of the whole call. -/
def s3RunAux (fetch : List Char → Except PyErr (List Nat))
    (decCsv decJson decParq : List Nat → Except PyErr DFrame) :
    List (List Char × DFrame) → List (List Char) → List (List Char) →
    Except PyErr (List (List Char × DFrame) × List (List Char))
  | dfs, diags, [] => .ok (dfs, diags)
  | dfs, diags, k :: ks =>
    match s3TryBody fetch decCsv decJson decParq k with
    | .ok dfRaw =>
      s3RunAux fetch decCsv decJson decParq
        (dictInsert dfs k (cleanDataframe dfRaw)) diags ks
    | .error e =>
      match s3Handler k e with
      | .ok msg => s3RunAux fetch decCsv decJson decParq dfs (diags ++ [msg]) ks
      | .error e2 => .error e2

def s3Run (fetch : List Char → Except PyErr (List Nat))
    (decCsv decJson decParq : List Nat → Except PyErr DFrame)
    (keys : List (List Char)) :
    Except PyErr (List (List Char × DFrame) × List (List Char)) :=
  s3RunAux fetch decCsv decJson decParq [] [] (sortStrs keys)

/-- `str.rsplit('.', 1)`: split at the last dot, if any. -/
def rsplitDot1 (s : List Char) : List (List Char) :=
  match s.reverse.dropWhile (fun c => !(c = '.')) with
  | [] => [s]
  | _ :: pre => [pre.reverse, (s.reverse.takeWhile (fun c => !(c = '.'))).reverse]

/-- Python list indexing `xs[i]`, raising `IndexError` when out of range. -/
def pyIndex (l : List (List Char)) (i : Nat) : Except PyErr (List Char) :=
  match l[i]? with
  | some x => .ok x
  | none => .error (.indexError (("list index out of range").toList))

/-- `LocalDataWrangler.get_filenames`: stems of the sorted glob result,
then `(file.rsplit('.', 1)[1]).lower()` applied to each STEM, zipped. -/
def localGetFilenames (files : List PyPath) :
    Except PyErr (List (List Char × List Char)) :=
  let filenames := files.map PyPath.stem
  match filenames.mapM (fun f =>
      match pyIndex (rsplitDot1 f) 1 with
      | .ok x => Except.ok (x.map lowChar)
      | .error e => Except.error (ε := PyErr) e) with
  | .ok dfNames => .ok (dfNames.zip filenames)
  | .error e => .error e

/-! ## The three code-defect findings (claims C1, C2, C3) -/

def fetchOkC1 : List Char → Except PyErr (List Nat) := fun _ => .ok []

def decFailC1 : List Nat → Except PyErr DFrame :=
  fun _ => .error (.parseError (("bad").toList))

/-- Claim C1 (refuted by the code): in the s3 pipeline, a batch containing
one reference that fails (here `a.xlsx`, an unsupported extension whose
fetch succeeds) does NOT continue: the `except` handler evaluates
`file_key.name` on a `str`, and the resulting `AttributeError` escapes the
loop, aborting the whole call instead of returning the successes. -/
theorem claim_C1_s3_handler_aborts_batch :
    s3Run fetchOkC1 decFailC1 decFailC1 decFailC1 [("a.xlsx").toList] =
      .error (.attributeError (("str object has no attribute name").toList)) := rfl

def dfEmptyC2 : DFrame := { names := [], dtypes := [], index := [], rows := [] }

/-- Decoder oracle for C2: `a.csv` parses to a (trivial) frame, `b.csv` is
malformed and raises a parse error. -/
def csvOracleC2 : PyPath → Except PyErr DFrame :=
  fun p => if p.name = ("a.csv").toList then .ok dfEmptyC2
           else .error (.parseError (("Error tokenizing data").toList))

/-- Claim C2 (refuted by the code): for a directory holding a valid
`a.csv` and a malformed `b.csv`, `LocalDataWrangler.__call__` returns an
EMPTY mapping and emits diagnostics for BOTH files: the guard
`file_path.endswith('.csv')` raises `AttributeError` on every `Path`
before any decode happens, so `a.csv` is never read either. -/
theorem claim_C2_local_always_empty :
    localRun csvOracleC2 csvOracleC2 csvOracleC2
        [{ name := ("a.csv").toList }, { name := ("b.csv").toList }] =
      ([],
       [diagMsg (("a.csv").toList)
          (.attributeError (("PosixPath object has no attribute endswith").toList)),
        diagMsg (("b.csv").toList)
          (.attributeError (("PosixPath object has no attribute endswith").toList))]) := rfl

/-- Claim C3 (refuted by the code): `LocalDataWrangler.get_filenames` does
not return normally on an ordinary listing: for a directory containing
`a.csv` the stem is `a`, `"a".rsplit('.', 1)` is the one-element list
`["a"]`, and the subscript `[1]` raises `IndexError`. -/
theorem claim_C3_get_filenames_raises :
    localGetFilenames [{ name := ("a.csv").toList }] =
      .error (.indexError (("list index out of range").toList)) := rfl
